import Mathlib

/-!
Shallow embedding of the negative-mining pipeline
(`learn/analytics-and-ml/model-training/gpl/02-negative-mining.ipynb`).

The in-scope logic is the miner: parsing of (query, passage) pairs from a
tab-separated file (cell 10, `get_text`), the deduplicating batched upsert of
passages into the vector index (cell 11), and the negative-mining pass that
builds (query, positive, negative) triplets (cell 13).

External collaborators (the sentence encoder and the Pinecone index) are kept
abstract: the upsert stage records the (id, passage) pairs it sends for
encoding and upsert, and the mining pass is parameterized by the per-query
list of (already shuffled) match ids returned by the index.
-/

/-- A (query, passage) pair, one per well-formed input line. -/
abbrev Pair := String × String

/-! ### Input parsing (cell 10, `get_text`)

Python: `query, passage = line.split('\t')` succeeds exactly when the line has
exactly two tab-separated fields; a `ValueError` on any other field count is
caught and the line is skipped. -/

/-- One line of the pairs file: `some (query, passage)` when the line splits
into exactly two tab-separated fields, `none` otherwise (the `ValueError`
branch of the generator). -/
def parsePair (line : String) : Option Pair :=
  match line.splitOn "\t" with
  | [q, p] => some (q, p)
  | _ => none

/-- `get_text`: read the whole file, split on newlines, and yield one pair per
line that splits into exactly two tab-separated fields, skipping the rest. -/
def get_text (content : String) : List Pair :=
  (content.splitOn "\n").filterMap parsePair

/-- A line is well formed when it has exactly two tab-separated fields. -/
def wellFormed (line : String) : Bool :=
  (line.splitOn "\t").length == 2

/-- The pair read from a well-formed line (first and second tab-separated
fields). -/
def parseWF (line : String) : Pair :=
  ((line.splitOn "\t").headD "", (line.splitOn "\t").getD 1 "")

/-! ### Deduplicating batched upsert (cell 11)

Python state: `passage_batch`, `id_batch` (the pending batch) and the records
sent to `model.encode` / `index.upsert`.  The loop enumerates the pairs; a
passage not in the current pending batch is appended together with the id
`str(i)`; when the pending batch reaches `batch_size` it is encoded, upserted
and cleared. -/

/-- State of the dedup/upsert loop: the pending passage batch, the pending id
batch, and the (id, passage) records already sent for encoding and upsert. -/
structure DedupState where
  passage_batch : List String
  id_batch : List String
  upserted : List (String × String)
deriving Repr, DecidableEq

/-- `if passage not in passage_batch: passage_batch.append(passage);
id_batch.append(str(i))`. -/
def appendNew (i : Nat) (passage : String) (s : DedupState) : DedupState :=
  if passage ∈ s.passage_batch then s
  else { s with passage_batch := s.passage_batch ++ [passage],
                id_batch := s.id_batch ++ [toString i] }

/-- `if len(passage_batch) == batch_size:` encode, upsert, and clear the
pending batch.  The upserted records are the (id, passage) pairs zipped in
order. -/
def flushIfFull (batch_size : Nat) (s : DedupState) : DedupState :=
  if s.passage_batch.length = batch_size then
    { passage_batch := [], id_batch := [],
      upserted := s.upserted ++ s.id_batch.zip s.passage_batch }
  else s

/-- One iteration of the cell-11 loop body for the pair at ordinal `i`. -/
def dedupStep (batch_size i : Nat) (passage : String) (s : DedupState) : DedupState :=
  flushIfFull batch_size (appendNew i passage s)

/-- The cell-11 loop over the remaining pairs, `i` being the ordinal of the
first remaining pair in the enumeration of the stream. -/
def dedupGo (batch_size : Nat) : List Pair → Nat → DedupState → DedupState
  | [], _, s => s
  | (_, passage) :: rest, i, s =>
      dedupGo batch_size rest (i + 1) (dedupStep batch_size i passage s)

/-- The whole dedup/upsert stage on a pair stream, with the notebook's
`batch_size = 64`. -/
def runDedup (pairs : List Pair) : DedupState :=
  dedupGo 64 pairs 0 ⟨[], [], []⟩

/-! ### Negative-mining pass (cell 13)

The pass walks `pairs` in slices `pairs[i:i+100]`; for each query of a slice
the index returns `top_k` matches, which the code shuffles and then scans.
The index and the shuffle are ambient collaborators, so the pass is
parameterized by `hitsFor : Nat → List String`, the already-shuffled list of
match ids for the query at global position `j`.  Python raises (`ValueError`
from `int`, `IndexError` from `pairs[...]`) on an id that is not the decimal
numeral of an in-range index, aborting the run: this is the `none` result. -/

/-- `pairs[int(hitId)][1]`: the passage looked up for a match id, `none` when
`int` fails or the index is out of range. -/
def negOf (pairs : List Pair) (hitId : String) : Option String :=
  (hitId.toNat?.bind fun idx => pairs.get? idx).map Prod.snd

/-- The inner `for hit in top_results:` loop of cell 13: scan the shuffled
match ids, and on the first one whose passage differs from the positive,
append the tab-joined triplet to the accumulated `triplets` and break. -/
def innerLoop (pairs : List Pair) (query pos : String) :
    List String → List String → Option (List String)
  | [], triplets => some triplets
  | hitId :: rest, triplets =>
    match hitId.toNat? with
    | none => none
    | some idx =>
      match pairs.get? idx with
      | none => none
      | some pr =>
        if pr.2 ≠ pos then
          some (triplets ++ [query ++ "\t" ++ pos ++ "\t" ++ pr.2])
        else innerLoop pairs query pos rest triplets

/-- The per-batch `for query, pos_passage, query_res in zip(...)` loop: each
queue element is a pair tagged with its global position, whose matches are
`hitsFor j`. -/
def mineQueries (pairs : List Pair) (hitsFor : Nat → List String) :
    List (Nat × Pair) → List String → Option (List String)
  | [], triplets => some triplets
  | (j, pr) :: rest, triplets =>
    match innerLoop pairs pr.1 pr.2 (hitsFor j) triplets with
    | none => none
    | some ts => mineQueries pairs hitsFor rest ts

/-- The outer `for i in range(0, len(pairs), batch_size)` loop body with
`batch_size = 100`, iterated over the list of slice starts: process the slice
`pairs[i:i+100]` and move on. -/
def mineBatches (pairs : List Pair) (hitsFor : Nat → List String) :
    List Nat → List String → Option (List String)
  | [], triplets => some triplets
  | i :: rest, triplets =>
    match mineQueries pairs hitsFor (List.enumFrom i ((pairs.drop i).take 100)) triplets with
    | none => none
    | some ts => mineBatches pairs hitsFor rest ts

/-- The whole mining pass: the slice starts are `range(0, len(pairs), 100)`,
that is `0, 100, ...` with `⌈len/100⌉` elements; start from an empty triplet
list. -/
def runMining (pairs : List Pair) (hitsFor : Nat → List String) : Option (List String) :=
  mineBatches pairs hitsFor (List.range' 0 ((pairs.length + 99) / 100) 100) []

/-- The written output file: `'\n'.join(triplets)`. -/
def miningOutput (pairs : List Pair) (hitsFor : Nat → List String) : Option String :=
  (runMining pairs hitsFor).map (String.intercalate "\n")

/-- Decimal digit characters of a natural number, most significant first
(specification of `Nat.repr` without the fuel). -/
def natDigits (n : Nat) : List Char :=
  if n < 10 then [Nat.digitChar n]
  else natDigits (n / 10) ++ [Nat.digitChar (n % 10)]
termination_by n
decreasing_by exact Nat.div_lt_self (by omega) (by omega)

/-- Invariant of the cell-11 loop after processing the pairs before ordinal
`i`: the pending id and passage batches run in step, the pending batch is
strictly below the batch size, flushed records come in full batches of 64,
and every (id, passage) record, pending or upserted, carries the decimal id
of an earlier ordinal whose pair has exactly that passage text. -/
def DedupInv (pairs : List Pair) (i : Nat) (s : DedupState) : Prop :=
  s.id_batch.length = s.passage_batch.length ∧
  s.passage_batch.length < 64 ∧
  s.upserted.length % 64 = 0 ∧
  ∀ idp ∈ s.upserted ++ s.id_batch.zip s.passage_batch,
    ∃ j, j < i ∧ idp.1 = toString j ∧ (pairs[j]?).map Prod.snd = some idp.2


/-! ### Concrete inputs used in closed statements -/

/-- 128 pairs whose passages are the decimal strings `"0"`-`"63"`, then `"0"`
again (a duplicate of the very first passage, straddling the first flush),
then `"64"`-`"126"`: 127 distinct passage texts. -/
def dupPairs : List Pair :=
  ((List.range 64).map (fun j => ("q", toString j))) ++
  [("q", "0")] ++
  ((List.range 63).map (fun j => ("q", toString (64 + j))))

/-- 64 pairs with pairwise distinct passages `"0"`-`"63"`: exactly one full
batch. -/
def pairs64 : List Pair := (List.range 64).map (fun j => ("q", toString j))

/-- A two-pair stream used to exercise the mining pass. -/
def pairsW : List Pair := [("q1", "p1"), ("q2", "p2")]

/-- Shuffled match ids for `pairsW`: the first query sees the other passage
first, the second query only its own. -/
def hitsW : Nat → List String := fun j => if j = 0 then ["1", "0"] else ["1"]

/-! ### Helper lemmas: `int(str(i)) = i` for the ids of the upsert stage -/

theorem toDigitsCore_eq (fuel n : Nat) (ds : List Char) (h : n < fuel) :
    Nat.toDigitsCore 10 fuel n ds = natDigits n ++ ds := by
  induction fuel generalizing n ds with
  | zero => omega
  | succ fuel ih =>
    rw [Nat.toDigitsCore]
    by_cases h10 : n < 10
    · have : n / 10 = 0 := Nat.div_eq_of_lt h10
      simp only [this, if_pos rfl]
      rw [natDigits, if_pos h10, Nat.mod_eq_of_lt h10]
      rfl
    · have h1 : 1 ≤ n / 10 := (Nat.one_le_div_iff (by omega)).mpr (by omega)
      have hlt : n / 10 < fuel :=
        Nat.lt_of_lt_of_le (Nat.div_lt_self (by omega) (by omega)) (by omega)
      rw [if_neg (by omega : ¬ n / 10 = 0), ih (n / 10) _ hlt]
      conv_rhs => rw [natDigits, if_neg h10]
      simp

theorem repr_eq_natDigits (n : Nat) : Nat.repr n = (natDigits n).asString := by
  rw [Nat.repr, Nat.toDigits, toDigitsCore_eq _ _ _ (Nat.lt_succ_self n), List.append_nil]

theorem digitChar_isDigit (n : Nat) (h : n < 10) : (Nat.digitChar n).isDigit = true := by
  interval_cases n <;> decide

theorem digitChar_val (n : Nat) (h : n < 10) : (Nat.digitChar n).toNat = 48 + n := by
  interval_cases n <;> decide

theorem natDigits_ne_nil (n : Nat) : natDigits n ≠ [] := by
  rw [natDigits]
  split <;> simp

theorem natDigits_isDigit (n : Nat) : ∀ c ∈ natDigits n, c.isDigit = true := by
  induction n using Nat.strong_induction_on with
  | _ n ih =>
    rw [natDigits]
    split
    · next h => simpa using digitChar_isDigit n h
    · next h =>
      intro c hc
      rcases List.mem_append.1 hc with h1 | h1
      · exact ih (n / 10) (Nat.div_lt_self (by omega) (by omega)) c h1
      · simp at h1
        subst h1
        exact digitChar_isDigit _ (Nat.mod_lt _ (by omega))

theorem natDigits_foldl (n : Nat) : ∀ a : Nat,
    (natDigits n).foldl (fun m c => m * 10 + (c.toNat - '0'.toNat)) a
      = a * 10 ^ (natDigits n).length + n := by
  induction n using Nat.strong_induction_on with
  | _ n ih =>
    intro a
    rw [natDigits]
    split
    · next h => simp [digitChar_val n h]
    · next h =>
      rw [List.foldl_append, ih (n / 10) (Nat.div_lt_self (by omega) (by omega)) a]
      simp only [List.foldl_cons, List.foldl_nil, List.length_append, List.length_cons,
        List.length_nil, digitChar_val _ (Nat.mod_lt _ (by omega)), Nat.pow_succ]
      have h48 : '0'.toNat = 48 := rfl
      rw [h48, Nat.mul_comm (10 ^ (natDigits (n / 10)).length) 10]
      have := Nat.div_add_mod n 10
      generalize (10 : Nat) ^ (natDigits (n / 10)).length = L at *
      have hm : a * (10 * L) = a * L * 10 := by ring
      omega

theorem asString_data (l : List Char) : (l.asString).data = l :=
  List.toList_asString l

/-- `int(str(n)) = n`: parsing the decimal numeral printed for a natural
number recovers it. -/
theorem toString_nat_toNat? (n : Nat) : (toString n).toNat? = some n := by
  have hrepr : toString n = (natDigits n).asString := repr_eq_natDigits n
  rw [hrepr, String.toNat?]
  have hne : ((natDigits n).asString).isEmpty = false := by
    rw [Bool.eq_false_iff]
    intro hemp
    have := (String.isEmpty_iff _).1 hemp
    have : (natDigits n) = [] := by
      have h2 := asString_data (natDigits n)
      rw [this] at h2
      simpa using h2.symm
    exact natDigits_ne_nil n this
  have hall : ((natDigits n).asString).all (·.isDigit) = true := by
    rw [String.all_eq, asString_data]
    exact List.all_eq_true.2 (natDigits_isDigit n)
  have hnat : ((natDigits n).asString).isNat = true := by
    rw [String.isNat, hne, hall]
    rfl
  rw [if_pos hnat, String.foldl_eq, asString_data]
  rw [natDigits_foldl n 0]
  simp

/-! ### Helper lemmas: invariant of the dedup/upsert loop -/

theorem dedupInv_step (pairs : List Pair) (i : Nat) (q p : String) (s : DedupState)
    (hget : pairs[i]? = some (q, p)) (hinv : DedupInv pairs i s) :
    DedupInv pairs (i + 1) (dedupStep 64 i p s) := by
  obtain ⟨hlen, hlt, hmod, hmem⟩ := hinv
  by_cases hdup : p ∈ s.passage_batch
  · have hstep : dedupStep 64 i p s = s := by
      simp [dedupStep, appendNew, hdup, flushIfFull, Nat.ne_of_lt hlt]
    rw [hstep]
    refine ⟨hlen, hlt, hmod, fun idp h => ?_⟩
    obtain ⟨j, hj, h1, h2⟩ := hmem idp h
    exact ⟨j, by omega, h1, h2⟩
  · have happ : appendNew i p s =
        ⟨s.passage_batch ++ [p], s.id_batch ++ [toString i], s.upserted⟩ := by
      simp [appendNew, hdup]
    have hzip : (s.id_batch ++ [toString i]).zip (s.passage_batch ++ [p]) =
        s.id_batch.zip s.passage_batch ++ [(toString i, p)] :=
      List.zip_append hlen
    have hnewmem : ∀ idp, idp ∈ s.upserted ++ s.id_batch.zip s.passage_batch ++ [(toString i, p)] →
        ∃ j, j < i + 1 ∧ idp.1 = toString j ∧ (pairs[j]?).map Prod.snd = some idp.2 := by
      intro idp h
      rcases List.mem_append.1 h with h' | h'
      · obtain ⟨j, hj, h1, h2⟩ := hmem idp h'
        exact ⟨j, by omega, h1, h2⟩
      · simp only [List.mem_singleton] at h'
        subst h'
        exact ⟨i, by omega, rfl, by rw [hget]; rfl⟩
    by_cases hfull : s.passage_batch.length + 1 = 64
    · have hstep : dedupStep 64 i p s =
          ⟨[], [], s.upserted ++ s.id_batch.zip s.passage_batch ++ [(toString i, p)]⟩ := by
        rw [dedupStep, happ, flushIfFull]
        simp only [List.length_append, List.length_cons, List.length_nil]
        rw [if_pos (by omega : s.passage_batch.length + (0 + 1) = 64), hzip]
        simp [List.append_assoc]
      rw [hstep]
      refine ⟨rfl, by simp, ?_, ?_⟩
      · simp only [List.length_append, List.length_zip, List.length_cons, List.length_nil]
        omega
      · intro idp h
        refine hnewmem idp ?_
        simpa using h
    · have hstep : dedupStep 64 i p s =
          ⟨s.passage_batch ++ [p], s.id_batch ++ [toString i], s.upserted⟩ := by
        rw [dedupStep, happ, flushIfFull]
        simp only [List.length_append, List.length_cons, List.length_nil]
        rw [if_neg (by omega : ¬ s.passage_batch.length + (0 + 1) = 64)]
      rw [hstep]
      refine ⟨by simp [hlen], by simp; omega, hmod, ?_⟩
      intro idp h
      refine hnewmem idp ?_
      rw [List.append_assoc]
      simpa [hzip] using h

theorem dedupInv_go (pairs : List Pair) :
    ∀ (rest : List Pair) (i : Nat) (s : DedupState),
      rest = pairs.drop i → DedupInv pairs i s →
      DedupInv pairs (i + rest.length) (dedupGo 64 rest i s) := by
  intro rest
  induction rest with
  | nil => intro i s _ hinv; simpa using hinv
  | cons pr rest' ih =>
    intro i s hdrop hinv
    obtain ⟨q, p⟩ := pr
    have hget : pairs[i]? = some (q, p) := by
      have h0 : (pairs.drop i)[0]? = some (q, p) := by rw [← hdrop]; simp
      rwa [List.getElem?_drop, Nat.add_zero] at h0
    have hdrop' : rest' = pairs.drop (i + 1) := by
      have h1 : (pairs.drop i).drop 1 = rest' := by rw [← hdrop]; rfl
      rw [List.drop_drop] at h1
      exact h1.symm
    have := ih (i + 1) (dedupStep 64 i p s) hdrop' (dedupInv_step pairs i q p s hget hinv)
    rw [dedupGo]
    simpa [Nat.add_comm, Nat.add_assoc, Nat.add_left_comm] using this

/-- The invariant holds of the final state of the dedup/upsert stage. -/
theorem dedupInv_run (pairs : List Pair) : DedupInv pairs pairs.length (runDedup pairs) := by
  have h0 : DedupInv pairs 0 ⟨[], [], []⟩ := by
    refine ⟨rfl, by simp, rfl, ?_⟩
    intro idp h
    simp at h
  have := dedupInv_go pairs pairs 0 ⟨[], [], []⟩ (by simp) h0
  simpa [runDedup] using this

/-! ### Helper lemmas: negative-mining pass -/

theorem negOf_eq_some {pairs : List Pair} {x v : String} :
    negOf pairs x = some v ↔
      ∃ idx pr, x.toNat? = some idx ∧ pairs.get? idx = some pr ∧ pr.2 = v := by
  rw [negOf]
  cases htn : x.toNat? with
  | none => simp
  | some idx =>
    cases hg : pairs.get? idx with
    | none => simp [hg]
    | some pr => simp [hg]

theorem innerLoop_mem (pairs : List Pair) (query pos : String) :
    ∀ (hits ts₀ ts : List String), innerLoop pairs query pos hits ts₀ = some ts →
      ∀ t ∈ ts, t ∈ ts₀ ∨ ∃ neg, neg ∈ pairs.map Prod.snd ∧
        neg ≠ pos ∧ t = query ++ "\t" ++ pos ++ "\t" ++ neg := by
  intro hits
  induction hits with
  | nil =>
    intro ts₀ ts h t ht
    rw [innerLoop] at h
    cases h
    exact Or.inl ht
  | cons hitId rest ih =>
    intro ts₀ ts h t ht
    rw [innerLoop] at h
    cases htn : hitId.toNat? with
    | none => simp only [htn] at h; cases h
    | some idx =>
      simp only [htn] at h
      cases hg : pairs.get? idx with
      | none => simp only [hg] at h; cases h
      | some pr =>
        simp only [hg] at h
        by_cases hpp : pr.2 = pos
        · rw [if_neg (not_not_intro hpp)] at h
          exact ih ts₀ ts h t ht
        · rw [if_pos hpp] at h
          cases h
          rcases List.mem_append.1 ht with h2 | h2
          · exact Or.inl h2
          · simp only [List.mem_singleton] at h2
            exact Or.inr ⟨pr.2, List.mem_map_of_mem Prod.snd (List.get?_mem hg), hpp, h2⟩

theorem mineQueries_mem (pairs : List Pair) (hitsFor : Nat → List String) :
    ∀ (queue : List (Nat × Pair)) (ts₀ ts : List String),
      mineQueries pairs hitsFor queue ts₀ = some ts →
      (∀ jp ∈ queue, jp.2 ∈ pairs) →
      ∀ t ∈ ts, t ∈ ts₀ ∨ ∃ q pos neg, (q, pos) ∈ pairs ∧ neg ∈ pairs.map Prod.snd ∧
        neg ≠ pos ∧ t = q ++ "\t" ++ pos ++ "\t" ++ neg := by
  intro queue
  induction queue with
  | nil =>
    intro ts₀ ts h _ t ht
    rw [mineQueries] at h
    cases h
    exact Or.inl ht
  | cons jp rest ih =>
    intro ts₀ ts h hqueue t ht
    obtain ⟨j, pr⟩ := jp
    rw [mineQueries] at h
    cases hil : innerLoop pairs pr.1 pr.2 (hitsFor j) ts₀ with
    | none => simp only [hil] at h; cases h
    | some ts1 =>
      simp only [hil] at h
      have hrest : ∀ jp ∈ rest, jp.2 ∈ pairs := fun x hx => hqueue x (List.mem_cons_of_mem _ hx)
      rcases ih ts1 ts h hrest t ht with h2 | h2
      · rcases innerLoop_mem pairs pr.1 pr.2 (hitsFor j) ts₀ ts1 hil t h2 with h3 | h3
        · exact Or.inl h3
        · obtain ⟨neg, hneg, hne, hform⟩ := h3
          have hpr : pr ∈ pairs := hqueue (j, pr) (List.mem_cons_self _ _)
          exact Or.inr ⟨pr.1, pr.2, neg, hpr, hneg, hne, hform⟩
      · exact Or.inr h2

theorem snd_mem_of_mem_enumFrom {α : Type} {x : Nat × α} :
    ∀ {l : List α} {n : Nat}, x ∈ List.enumFrom n l → x.2 ∈ l := by
  intro l
  induction l with
  | nil => intro n h; cases h
  | cons a as ih =>
    intro n h
    rw [List.enumFrom_cons] at h
    rcases List.mem_cons.1 h with h1 | h1
    · subst h1; exact List.mem_cons_self _ _
    · exact List.mem_cons_of_mem _ (ih h1)

theorem mineBatches_mem (pairs : List Pair) (hitsFor : Nat → List String) :
    ∀ (starts : List Nat) (ts₀ ts : List String),
      mineBatches pairs hitsFor starts ts₀ = some ts →
      ∀ t ∈ ts, t ∈ ts₀ ∨ ∃ q pos neg, (q, pos) ∈ pairs ∧ neg ∈ pairs.map Prod.snd ∧
        neg ≠ pos ∧ t = q ++ "\t" ++ pos ++ "\t" ++ neg := by
  intro starts
  induction starts with
  | nil =>
    intro ts₀ ts h t ht
    rw [mineBatches] at h
    cases h
    exact Or.inl ht
  | cons i rest ih =>
    intro ts₀ ts h t ht
    rw [mineBatches] at h
    cases hmq : mineQueries pairs hitsFor (List.enumFrom i ((pairs.drop i).take 100)) ts₀ with
    | none => simp only [hmq] at h; cases h
    | some ts1 =>
      simp only [hmq] at h
      have hqueue : ∀ jp ∈ List.enumFrom i ((pairs.drop i).take 100), jp.2 ∈ pairs :=
        fun jp hjp =>
          List.mem_of_mem_drop (List.mem_of_mem_take (snd_mem_of_mem_enumFrom hjp))
      rcases ih ts1 ts h t ht with h2 | h2
      · rcases mineQueries_mem pairs hitsFor _ ts₀ ts1 hmq hqueue t h2 with h3 | h3
        · exact Or.inl h3
        · exact Or.inr h3
      · exact Or.inr h2

theorem mineQueries_append (pairs : List Pair) (hitsFor : Nat → List String) :
    ∀ (l₁ l₂ : List (Nat × Pair)) (ts : List String),
      mineQueries pairs hitsFor (l₁ ++ l₂) ts =
        match mineQueries pairs hitsFor l₁ ts with
        | none => none
        | some ts1 => mineQueries pairs hitsFor l₂ ts1 := by
  intro l₁
  induction l₁ with
  | nil => intro l₂ ts; rfl
  | cons jp rest ih =>
    intro l₂ ts
    obtain ⟨j, pr⟩ := jp
    rw [List.cons_append, mineQueries, mineQueries]
    cases hil : innerLoop pairs pr.1 pr.2 (hitsFor j) ts with
    | none => rfl
    | some ts1 => exact ih l₂ ts1

theorem enumFrom_append {α : Type} :
    ∀ (l₁ l₂ : List α) (n : Nat),
      List.enumFrom n (l₁ ++ l₂) = List.enumFrom n l₁ ++ List.enumFrom (n + l₁.length) l₂ := by
  intro l₁
  induction l₁ with
  | nil => intro l₂ n; simp
  | cons a as ih =>
    intro l₂ n
    have harith : n + 1 + as.length = n + (a :: as).length := by simp; omega
    rw [List.cons_append, List.enumFrom_cons, ih l₂ (n + 1), List.enumFrom_cons, harith]
    simp

theorem mineBatches_flat (pairs : List Pair) (hitsFor : Nat → List String) :
    ∀ (k i : Nat) (ts : List String), pairs.length ≤ i + 100 * k →
      mineBatches pairs hitsFor (List.range' i k 100) ts =
        mineQueries pairs hitsFor (List.enumFrom i (pairs.drop i)) ts := by
  intro k
  induction k with
  | zero =>
    intro i ts h
    have hnil : pairs.drop i = [] := List.drop_eq_nil_of_le (by omega)
    rw [List.range'_zero, hnil, List.enumFrom_nil, mineBatches, mineQueries]
  | succ k ih =>
    intro i ts h
    rw [List.range'_succ, mineBatches]
    have hdd : (pairs.drop i).drop 100 = pairs.drop (i + 100) := by
      rw [List.drop_drop]
    have hsplit : pairs.drop i = (pairs.drop i).take 100 ++ pairs.drop (i + 100) := by
      rw [← hdd, List.take_append_drop]
    by_cases hge : 100 ≤ (pairs.drop i).length
    · have hlen : ((pairs.drop i).take 100).length = 100 := by
        rw [List.length_take]
        omega
      conv_rhs => rw [hsplit]
      rw [enumFrom_append, mineQueries_append, hlen]
      cases hmq : mineQueries pairs hitsFor (List.enumFrom i ((pairs.drop i).take 100)) ts with
      | none => rfl
      | some ts1 => exact ih (i + 100) ts1 (by omega)
    · have hnil : pairs.drop (i + 100) = [] := by
        rw [← hdd]
        exact List.drop_eq_nil_of_le (by omega)
      have htake : (pairs.drop i).take 100 = pairs.drop i :=
        List.take_of_length_le (by omega)
      rw [htake]
      cases hmq : mineQueries pairs hitsFor (List.enumFrom i (pairs.drop i)) ts with
      | none => rfl
      | some ts1 =>
        show mineBatches pairs hitsFor (List.range' (i + 100) k 100) ts1 = some ts1
        rw [ih (i + 100) ts1 (by omega), hnil, List.enumFrom_nil, mineQueries]

/-- The batched mining pass is the in-order pass over the enumerated pairs. -/
theorem runMining_eq_flat (pairs : List Pair) (hitsFor : Nat → List String) :
    runMining pairs hitsFor = mineQueries pairs hitsFor (List.enumFrom 0 pairs) [] := by
  rw [runMining, mineBatches_flat pairs hitsFor _ 0 [] (by omega), List.drop_zero]

/-! ### Helper lemmas: parsing -/

theorem filterMap_parsePair_eq (lines : List String) :
    lines.filterMap parsePair = (lines.filter wellFormed).map parseWF := by
  induction lines with
  | nil => rfl
  | cons l rest ih =>
    rw [List.filterMap_cons, List.filter_cons]
    cases hsp : l.splitOn "\t" with
    | nil => simp [parsePair, hsp, wellFormed, ih]
    | cons a as =>
      cases as with
      | nil => simp [parsePair, hsp, wellFormed, ih]
      | cons b bs =>
        cases bs with
        | nil => simp [parsePair, hsp, wellFormed, parseWF, ih]
        | cons c cs => simp [parsePair, hsp, wellFormed, ih]

theorem toNat?_lit0 : ("0" : String).toNat? = some 0 := toString_nat_toNat? 0

theorem toNat?_lit1 : ("1" : String).toNat? = some 1 := toString_nat_toNat? 1

/-! ### Claim theorems -/

set_option maxRecDepth 100000 in
/-- Claim C1 (refuted; code bug): deduplication is only checked against the
current pending batch, which is cleared at every flush, so a passage text
that was already batched and upserted in an earlier batch IS batched and
upserted again.  On `dupPairs` (128 pairs, 127 distinct passage texts, the
65th pair repeating the first passage `"0"`), the stage sends 128 records,
not 127, the passage `"0"` is stored twice (under ids `"0"` and `"64"`), and
no pending partial batch remains to excuse the difference. -/
theorem dedup_rebatches_crossbatch_duplicate :
    (dupPairs.map Prod.snd).dedup.length = 127 ∧
    (runDedup dupPairs).upserted.length = 128 ∧
    ((runDedup dupPairs).upserted.map Prod.snd).count "0" = 2 ∧
    ("0", "0") ∈ (runDedup dupPairs).upserted ∧
    ("64", "0") ∈ (runDedup dupPairs).upserted ∧
    (runDedup dupPairs).passage_batch = [] := by
  decide

/-- Claim C2: every triplet the mining pass emits is built from a (query,
positive) pair of the run, its negative passage is drawn from the passage
pool of the run's pairs, and the negative is strictly unequal (as a string)
to the positive. -/
theorem mining_triplet_negative_invariant (pairs : List Pair) (hitsFor : Nat → List String)
    (ts : List String) (h : runMining pairs hitsFor = some ts) :
    ∀ t ∈ ts, ∃ q pos neg, (q, pos) ∈ pairs ∧ neg ∈ pairs.map Prod.snd ∧ neg ≠ pos ∧
      t = q ++ "\t" ++ pos ++ "\t" ++ neg := by
  intro t ht
  rw [runMining] at h
  rcases mineBatches_mem pairs hitsFor _ [] ts h t ht with h2 | h2
  · cases h2
  · exact h2

theorem mining_triplet_negative_invariant_witness :
    ∃ q pos neg, (q, pos) ∈ pairsW ∧ neg ∈ pairsW.map Prod.snd ∧ neg ≠ pos ∧
      "q1\tp1\tp2" = q ++ "\t" ++ pos ++ "\t" ++ neg :=
  mining_triplet_negative_invariant pairsW hitsW ["q1\tp1\tp2"]
    (by simp [runMining, pairsW, hitsW, mineBatches, mineQueries, innerLoop,
      toNat?_lit0, toNat?_lit1, List.enumFrom])
    "q1\tp1\tp2" (by simp)

/-- Claim C3: given a query's candidate list as ordered by the shuffle, the
miner scans it in order and emits exactly one triplet from the first
candidate whose passage differs from the positive, independently of every
candidate after it; and when every candidate's passage equals the positive
it emits nothing and continues without error. -/
theorem mining_first_differing_candidate (pairs : List Pair) (query pos : String)
    (ts₀ : List String) :
    (∀ (l₁ : List String) (hitId : String) (l₂ : List String) (neg : String),
      (∀ x ∈ l₁, negOf pairs x = some pos) → negOf pairs hitId = some neg → neg ≠ pos →
      innerLoop pairs query pos (l₁ ++ hitId :: l₂) ts₀ =
        some (ts₀ ++ [query ++ "\t" ++ pos ++ "\t" ++ neg])) ∧
    (∀ hits : List String, (∀ x ∈ hits, negOf pairs x = some pos) →
      innerLoop pairs query pos hits ts₀ = some ts₀) := by
  constructor
  · intro l₁
    induction l₁ with
    | nil =>
      intro hitId l₂ neg _ hneg hne
      obtain ⟨idx, pr, htn, hg, hpr⟩ := negOf_eq_some.1 hneg
      rw [List.nil_append]
      simp only [innerLoop, htn, hg]
      rw [if_pos (by rw [hpr]; exact hne), hpr]
    | cons x l₁ ih =>
      intro hitId l₂ neg hall hneg hne
      obtain ⟨idx, pr, htn, hg, hpr⟩ := negOf_eq_some.1 (hall x (List.mem_cons_self _ _))
      rw [List.cons_append]
      simp only [innerLoop, htn, hg]
      rw [if_neg (not_not_intro hpr)]
      exact ih hitId l₂ neg (fun y hy => hall y (List.mem_cons_of_mem _ hy)) hneg hne
  · intro hits
    induction hits with
    | nil => intro _; rw [innerLoop]
    | cons x rest ih =>
      intro hall
      obtain ⟨idx, pr, htn, hg, hpr⟩ := negOf_eq_some.1 (hall x (List.mem_cons_self _ _))
      simp only [innerLoop, htn, hg]
      rw [if_neg (not_not_intro hpr)]
      exact ih (fun y hy => hall y (List.mem_cons_of_mem _ hy))

theorem mining_first_differing_candidate_witness :
    innerLoop pairsW "q1" "p1" (["0"] ++ "1" :: ["0"]) [] =
      some ([] ++ ["q1" ++ "\t" ++ "p1" ++ "\t" ++ "p2"]) :=
  (mining_first_differing_candidate pairsW "q1" "p1" []).1 ["0"] "1" ["0"] "p2"
    (by intro x hx; simp only [List.mem_singleton] at hx; subst hx
        simp [negOf, toNat?_lit0, pairsW])
    (by simp [negOf, toNat?_lit1, pairsW])
    (by decide)

/-- Claim C4: the pending batch is encoded and upserted exactly when its
length reaches the fixed batch size 64 and is cleared by the flush; the
final state of a run always has fewer than 64 pending passages and a
multiple of 64 upserted records, and a non-empty final partial batch is
simply left pending, never upserted (e.g. a one-pair run upserts nothing). -/
theorem upsert_flush_at_batch_size :
    (∀ pairs, (runDedup pairs).upserted.length % 64 = 0 ∧
      (runDedup pairs).passage_batch.length < 64 ∧
      (runDedup pairs).id_batch.length = (runDedup pairs).passage_batch.length) ∧
    (∀ s : DedupState, s.passage_batch.length = 64 → flushIfFull 64 s =
      ⟨[], [], s.upserted ++ s.id_batch.zip s.passage_batch⟩) ∧
    (∀ s : DedupState, s.passage_batch.length ≠ 64 → flushIfFull 64 s = s) ∧
    ((runDedup [("what is a cat", "A cat is a small mammal.")]).passage_batch =
      ["A cat is a small mammal."] ∧
     (runDedup [("what is a cat", "A cat is a small mammal.")]).upserted = []) := by
  refine ⟨?_, ?_, ?_, by decide⟩
  · intro pairs
    obtain ⟨hlen, hlt, hmod, -⟩ := dedupInv_run pairs
    exact ⟨hmod, hlt, hlen⟩
  · intro s h
    rw [flushIfFull, if_pos h]
  · intro s h
    rw [flushIfFull, if_neg h]

theorem upsert_flush_at_batch_size_witness :
    flushIfFull 64 ⟨(List.range 64).map toString, (List.range 64).map toString, []⟩ =
      ⟨[], [], (((List.range 64).map toString).zip ((List.range 64).map toString))⟩ ∧
    flushIfFull 64 ⟨["a"], ["0"], []⟩ = ⟨["a"], ["0"], []⟩ :=
  ⟨upsert_flush_at_batch_size.2.1 _ (by simp),
   upsert_flush_at_batch_size.2.2.1 _ (by decide)⟩

/-- Claim C5: one query contributes at most one triplet: the inner scan only
ever appends to the accumulated triplet list, and extends it by at most one
element. -/
theorem mining_at_most_one_triplet_per_query (pairs : List Pair) (query pos : String) :
    ∀ (hits ts₀ ts : List String), innerLoop pairs query pos hits ts₀ = some ts →
      ts₀ <+: ts ∧ ts.length ≤ ts₀.length + 1 := by
  intro hits
  induction hits with
  | nil =>
    intro ts₀ ts h
    rw [innerLoop] at h
    cases h
    exact ⟨List.prefix_refl _, by omega⟩
  | cons hitId rest ih =>
    intro ts₀ ts h
    rw [innerLoop] at h
    cases htn : hitId.toNat? with
    | none => simp only [htn] at h; cases h
    | some idx =>
      simp only [htn] at h
      cases hg : pairs.get? idx with
      | none => simp only [hg] at h; cases h
      | some pr =>
        simp only [hg] at h
        by_cases hpp : pr.2 = pos
        · rw [if_neg (not_not_intro hpp)] at h
          exact ih ts₀ ts h
        · rw [if_pos hpp] at h
          cases h
          exact ⟨List.prefix_append _ _, by simp⟩

theorem mining_at_most_one_triplet_per_query_witness :
    ([] : List String) <+: ["q1\tp1\tp2"] ∧
    (["q1\tp1\tp2"] : List String).length ≤ ([] : List String).length + 1 :=
  mining_at_most_one_triplet_per_query pairsW "q1" "p1" ["1"] [] ["q1\tp1\tp2"]
    (by simp [innerLoop, toNat?_lit1, pairsW])

/-- Claim C6: the parser skips every malformed line (any line that does not
split into exactly two tab-separated fields) without aborting; the resulting
pair sequence has exactly one pair per well-formed line, in input order, and
its length is the count of well-formed lines only. -/
theorem parser_skips_malformed_lines (content : String) :
    get_text content = ((content.splitOn "\n").filter wellFormed).map parseWF ∧
    (get_text content).length = (content.splitOn "\n").countP wellFormed := by
  have h := filterMap_parsePair_eq (content.splitOn "\n")
  refine ⟨h, ?_⟩
  rw [get_text, h, List.length_map, ← List.countP_eq_length_filter]

/-- Claim C7: when a pair's passage is treated as new by the dedup test, the
id appended alongside it is the stringified ordinal of that pair in the pair
stream, the (id, passage) record is appended to the pending batch, and the
step is that append followed by the flush check. -/
theorem new_passage_gets_ordinal_id (batch_size i : Nat) (p : String) (s : DedupState)
    (hnew : p ∉ s.passage_batch) :
    (appendNew i p s).passage_batch = s.passage_batch ++ [p] ∧
    (appendNew i p s).id_batch = s.id_batch ++ [toString i] ∧
    (appendNew i p s).upserted = s.upserted ∧
    dedupStep batch_size i p s = flushIfFull batch_size (appendNew i p s) := by
  refine ⟨?_, ?_, ?_, rfl⟩ <;> simp [appendNew, hnew]

theorem new_passage_gets_ordinal_id_witness :
    (appendNew 2 "x" ⟨["a"], ["0"], []⟩).passage_batch = ["a"] ++ ["x"] ∧
    (appendNew 2 "x" ⟨["a"], ["0"], []⟩).id_batch = ["0"] ++ [toString 2] ∧
    (appendNew 2 "x" ⟨["a"], ["0"], []⟩).upserted = [] ∧
    dedupStep 64 2 "x" ⟨["a"], ["0"], []⟩ = flushIfFull 64 (appendNew 2 "x" ⟨["a"], ["0"], []⟩) :=
  new_passage_gets_ordinal_id 64 2 "x" ⟨["a"], ["0"], []⟩ (by decide)

/-- Claim C8: the mining pass over slices of 100 is the in-order pass over
the enumerated pairs (batch order, then per-query order within each batch,
flattens to input order); the output file is the triplet list joined by
newlines; and every output line is three tab-joined fields starting from a
(query, positive) pair of the run. -/
theorem mining_batches_preserve_order_and_output (pairs : List Pair)
    (hitsFor : Nat → List String) :
    runMining pairs hitsFor = mineQueries pairs hitsFor (List.enumFrom 0 pairs) [] ∧
    miningOutput pairs hitsFor = (runMining pairs hitsFor).map (String.intercalate "\n") ∧
    (∀ ts, runMining pairs hitsFor = some ts → ∀ t ∈ ts,
      ∃ q pos neg, (q, pos) ∈ pairs ∧ t = q ++ "\t" ++ pos ++ "\t" ++ neg) := by
  refine ⟨runMining_eq_flat pairs hitsFor, rfl, ?_⟩
  intro ts h t ht
  rw [runMining] at h
  rcases mineBatches_mem pairs hitsFor _ [] ts h t ht with h2 | h2
  · cases h2
  · obtain ⟨q, pos, neg, hq, -, -, hform⟩ := h2
    exact ⟨q, pos, neg, hq, hform⟩

theorem mining_batches_preserve_order_and_output_witness :
    ∃ q pos neg, (q, pos) ∈ pairsW ∧ "q1\tp1\tp2" = q ++ "\t" ++ pos ++ "\t" ++ neg :=
  (mining_batches_preserve_order_and_output pairsW hitsW).2.2 ["q1\tp1\tp2"]
    (by simp [runMining, pairsW, hitsW, mineBatches, mineQueries, innerLoop,
      toNat?_lit0, toNat?_lit1, List.enumFrom])
    "q1\tp1\tp2" (by simp)

/-- Claim C9: every id upserted during a run is the decimal numeral of an
index in range for the run's pairs list, the passage at that index is
exactly the upserted passage, and consequently the mining-pass lookup
`pairs[int(hit_id)][1]` is in-bounds, well-defined, and returns that passage
for every id the run upserted. -/
theorem upserted_ids_are_valid_indices (pairs : List Pair) (id p : String)
    (h : (id, p) ∈ (runDedup pairs).upserted) :
    ∃ j, j < pairs.length ∧ id = toString j ∧ id.toNat? = some j ∧
      (pairs[j]?).map Prod.snd = some p ∧ negOf pairs id = some p := by
  obtain ⟨-, -, -, hmem⟩ := dedupInv_run pairs
  obtain ⟨j, hj, h1, h2⟩ := hmem (id, p) (List.mem_append.2 (Or.inl h))
  have hjlt : j < pairs.length := by
    by_contra hge
    rw [List.getElem?_eq_none (by omega)] at h2
    simp at h2
  have h1' : id = toString j := h1
  have h2' : Option.map Prod.snd pairs[j]? = some p := h2
  have htn : id.toNat? = some j := by
    rw [h1']
    exact toString_nat_toNat? j
  refine ⟨j, hjlt, h1', htn, h2', ?_⟩
  rw [negOf, htn]
  simpa [List.get?_eq_getElem?] using h2'

set_option maxRecDepth 20000 in
theorem upserted_ids_are_valid_indices_witness :
    ∃ j, j < pairs64.length ∧ "0" = toString j ∧ ("0" : String).toNat? = some j ∧
      (pairs64[j]?).map Prod.snd = some "0" ∧ negOf pairs64 "0" = some "0" :=
  upserted_ids_are_valid_indices pairs64 "0" "0" (by decide)

/-- Claim C10: parsing is deterministic: the pair sequence read from a file
is a function of the file contents alone, so two runs on the same contents
agree. -/
theorem parsing_deterministic (c₁ c₂ : String) (h : c₁ = c₂) :
    get_text c₁ = get_text c₂ := by
  rw [h]

theorem parsing_deterministic_witness :
    get_text "what is a cat\tA cat is a small mammal." =
      get_text "what is a cat\tA cat is a small mammal." :=
  parsing_deterministic _ _ rfl
